import Mathlib

/-!
Verification of the Barista Buddy core pipeline.

This file gives a shallow embedding, in Lean 4, of the three-stage decision
pipeline of the Barista Buddy voice assistant (pronunciation normalization,
topic admission filtering, and best-match retrieval), together with the
pipeline orchestrator `process_query`, and proves properties about it.

Embedding conventions:
* Python strings are Lean `String`s (a wrapper around `List Char`); the
  Python string operations used by the code (`str.lower`, `str.replace`,
  `str.strip`, the `in` substring test, string `<` comparison) are embedded
  as executable Lean functions on `List Char` defined below.  `str.lower`
  is embedded for the ASCII range, which covers every string the program's
  data and tests use.
* Python floats only ever hold exact small rationals here (similarity
  ratios `2*M/T` and the cutoffs 0.5/0.6), and every comparison the code
  performs on them is exact at those values, so scores are embedded as
  exact fractions: a pair `(num, den) : Nat × Nat` with positive
  denominator, compared by cross multiplication.  Theorem statements
  translate such a pair to `ℚ` via `fracQ`.
* Code that can raise a Python exception is embedded with `Option`:
  `none` models an uncaught exception (`IndexError` from `correct[0]` on an
  empty variant list, `ValueError` from `difflib.get_close_matches` on a
  non-positive `n`), `some` a normal return.
* `difflib.SequenceMatcher.ratio` (with no junk heuristic; the autojunk
  heuristic only activates for strings of length ≥ 200, far beyond this
  program's data) computes `2*M/T` where `M` is the total size of the
  matching blocks found by recursively taking the longest matching block —
  the block maximal in length, then minimal in its start position in `a`,
  then in `b` — and `T` the sum of the lengths.  `matchTotal` below embeds
  exactly that recursion; `getCloseMatches` embeds
  `difflib.get_close_matches`, whose `quick_ratio` pre-filters are upper
  bounds of `ratio` and hence equivalent to filtering by `ratio ≥ cutoff`,
  and whose `heapq.nlargest` is documented to equal
  `sorted(result, reverse=True)[:n]`, a stable descending sort of the
  `(score, string)` pairs under Python tuple comparison.
-/

/-! ### Embedded Python string primitives -/

/-- Embedding of Python `str.lower` on a single character (ASCII range). -/
def lowerChar (c : Char) : Char :=
  if 65 ≤ c.toNat ∧ c.toNat ≤ 90 then Char.ofNat (c.toNat + 32) else c

/-- Embedding of Python `str.lower`. -/
def pyLower (s : String) : String :=
  ⟨s.data.map lowerChar⟩

/-- Embedding of the Python substring test `p in t` on character lists. -/
def substrB (p : List Char) : List Char → Bool
  | [] => p.isEmpty
  | c :: rest => p.isPrefixOf (c :: rest) || substrB p rest

/-- Embedding of Python string `<` (lexicographic by code point) on
character lists. -/
def charsLt : List Char → List Char → Bool
  | [], [] => false
  | [], _ :: _ => true
  | _ :: _, [] => false
  | a :: as, b :: bs => if a < b then true else if b < a then false else charsLt as bs

/-- Characters Python `str.strip` removes (ASCII whitespace). -/
def isSpaceChar (c : Char) : Bool :=
  c = ' ' || c = '\t' || c = '\n' || c = '\r' || c = Char.ofNat 11 || c = Char.ofNat 12

/-- Embedding of Python `str.strip()`. -/
def pyStrip (s : String) : String :=
  ⟨((s.data.dropWhile isSpaceChar).reverse.dropWhile isSpaceChar).reverse⟩

/-- Worker for Python `str.replace` with a non-empty pattern: scan left to
right; on a match emit the replacement, then skip the remaining
`old.length - 1` matched characters (tracked by the first argument). -/
def repGo (old new : List Char) : Nat → List Char → List Char
  | _, [] => []
  | k + 1, _ :: rest => repGo old new k rest
  | 0, c :: rest =>
    if old.isPrefixOf (c :: rest) then new ++ repGo old new (old.length - 1) rest
    else c :: repGo old new 0 rest

/-- Embedding of Python `s.replace(old, new)`: replaces every
non-overlapping occurrence left to right; an empty pattern inserts `new`
at every position, as Python does. -/
def pyReplaceL (s old new : List Char) : List Char :=
  if old.isEmpty then new ++ s.flatMap (fun c => c :: new)
  else repGo old new 0 s

/-- Wrapper of `pyReplaceL` acting on `String`. -/
def pyReplace (s old new : String) : String :=
  ⟨pyReplaceL s.data old.data new.data⟩

/-! ### FuzzyMatcher (src/barista_buddy.py lines 55-66)

The pronunciation dictionary is parsed JSON: each value is a string, a
list, or something else.  `PronVal` embeds that dynamic shape. -/

/-- A JSON value in the pronunciation dictionary: a string, a list of
values, or any other shape. -/
inductive PronVal where
  | vstr (s : String)
  | vlist (l : List PronVal)
  | vother

/-- The replacement string an entry value contributes, if any:
`correct_text` uses a string value directly, the head of a list value when
that head is a string, and skips everything else. -/
def effRepl : PronVal → Option String
  | .vstr c => some c
  | .vlist (.vstr c :: _) => some c
  | _ => none

/-- False exactly for the empty-list value, on which `correct[0]`
raises `IndexError` in the source. -/
def entryOk : PronVal → Bool
  | .vlist [] => false
  | _ => true

/-- One iteration of the `correct_text` loop body for entry
`(wrong, correct)` acting on the accumulated text `t`:
`text = text.replace(wrong.lower(), correct.lower())` after resolving the
list/str shape of `correct`; `none` models the `IndexError` on an empty
list value. -/
def correctStep (t : String) (wrong : String) : PronVal → Option String
  | .vstr c => some (pyReplace t (pyLower wrong) (pyLower c))
  | .vlist [] => none
  | .vlist (.vstr c :: _) => some (pyReplace t (pyLower wrong) (pyLower c))
  | .vlist (_ :: _) => some t
  | .vother => some t

/-- Embedding of `FuzzyMatcher.correct_text`: lower-case the input, then
apply every pronunciation entry in dictionary order. -/
def correct_text (pron : List (String × PronVal)) (text : String) : Option String :=
  pron.foldl (fun acc e => acc.bind (fun t => correctStep t e.1 e.2)) (some (pyLower text))

/-! ### TopicFilter (src/barista_buddy.py lines 71-76,
src/barista-buddy/src/topic_filter.py) -/

/-- True when no effective entry of the table has a variant occurring
(case-insensitively) as a substring of `y`: the fixed-point condition of
the substitution pass. -/
def variantFree (tbl : List (String × PronVal)) (y : String) : Bool :=
  tbl.all (fun e =>
    match effRepl e.2 with
    | some _ => !(substrB (pyLower e.1).data y.data)
    | none => true)

/-- Embedding of `TopicFilter.is_coffee_related`: true iff some keyword
occurs as a substring of the lower-cased text. -/
def is_coffee_related (keywords : List String) (text : String) : Bool :=
  keywords.any (fun kw => substrB kw.data (pyLower text).data)

/-- Embedding of the modular keyword loader
(`[k.strip() for k in f.readlines()]` in topic_filter.py), applied to the
already-split lines of the keyword file: it strips each line but keeps
empty results. -/
def loadKeywordsModular (lines : List String) : List String :=
  lines.map pyStrip

/-! ### Sequence similarity (difflib.SequenceMatcher without junk) -/

/-- Length of the longest common prefix of two character lists. -/
def cpl : List Char → List Char → Nat
  | a :: as, b :: bs => if a = b then cpl as bs + 1 else 0
  | _, _ => 0

/-- All candidate matching blocks in the window `[alo, ahi) × [blo, bhi)`:
for each start pair `(i, j)` the maximal block length there, clipped to the
window. -/
def flmCands (a b : List Char) (alo ahi blo bhi : Nat) : List (Nat × Nat × Nat) :=
  (List.range' alo (ahi - alo)).flatMap (fun i =>
    (List.range' blo (bhi - blo)).map (fun j =>
      (i, j, min (cpl (a.drop i) (b.drop j)) (min (ahi - i) (bhi - j)))))

/-- Select the candidate with maximal length, breaking ties towards the
earliest start in `a` then in `b` (the scan order of the candidate list),
exactly the block `SequenceMatcher.find_longest_match` returns with no
junk. -/
def flmPick : Nat × Nat × Nat → List (Nat × Nat × Nat) → Nat × Nat × Nat
  | best, [] => best
  | best, c :: cs => flmPick (if best.2.2 < c.2.2 then c else best) cs

/-- Embedding of `SequenceMatcher.find_longest_match` (no junk): the
matching block of maximal length, then minimal start in `a`, then minimal
start in `b`; `(alo, blo, 0)` when the window has no match. -/
def findLongestMatch (a b : List Char) (alo ahi blo bhi : Nat) : Nat × Nat × Nat :=
  flmPick (alo, blo, 0) (flmCands a b alo ahi blo bhi)

/-- Total size of the matching blocks of `SequenceMatcher
.get_matching_blocks` restricted to a window, written with explicit fuel so
that the kernel can evaluate it; the fuel `(ahi - alo) + (bhi - blo) + 1`
supplied by `matchTotal` never runs out (`matchTotalF_fuel` below). -/
def matchTotalF (a b : List Char) : Nat → Nat → Nat → Nat → Nat → Nat
  | 0, _, _, _, _ => 0
  | fuel + 1, alo, ahi, blo, bhi =>
    match findLongestMatch a b alo ahi blo bhi with
    | (_, _, 0) => 0
    | (i, j, k + 1) =>
      matchTotalF a b fuel alo i blo j + (k + 1) +
      matchTotalF a b fuel (i + (k + 1)) ahi (j + (k + 1)) bhi

/-- Total matched size `M` over the window `[alo, ahi) × [blo, bhi)`. -/
def matchTotal (a b : List Char) (alo ahi blo bhi : Nat) : Nat :=
  matchTotalF a b ((ahi - alo) + (bhi - blo) + 1) alo ahi blo bhi

/-- Embedding of `SequenceMatcher.ratio()` for `a = seq1`, `b = seq2` as an
exact fraction `2*M / (len(a)+len(b))` with positive denominator; `1` when
both strings are empty, as in `difflib._calculate_ratio`. -/
def simPair (a b : List Char) : Nat × Nat :=
  if a.length + b.length = 0 then (1, 1)
  else (2 * matchTotal a b 0 a.length 0 b.length, a.length + b.length)

/-- The rational value of a `(num, den)` fraction pair. -/
def fracQ (p : Nat × Nat) : ℚ :=
  (p.1 : ℚ) / (p.2 : ℚ)

/-- Exact `≤` on fraction pairs with positive denominators. -/
def fracLe (p q : Nat × Nat) : Bool :=
  decide (p.1 * q.2 ≤ q.1 * p.2)

/-- Exact `<` on fraction pairs with positive denominators. -/
def fracLt (p q : Nat × Nat) : Bool :=
  decide (p.1 * q.2 < q.1 * p.2)

/-- Exact `=` on fraction pairs with positive denominators. -/
def fracEq (p q : Nat × Nat) : Bool :=
  decide (p.1 * q.2 = q.1 * p.2)

/-! ### The descending sort of `heapq.nlargest`

`heapq.nlargest(n, result)` on the `(score, string)` pairs equals
`sorted(result, reverse=True)[:n]`: a stable descending sort under Python
tuple comparison (score first, then string, lexicographically by code
point). -/

/-- Python tuple comparison `p > q` on `(score, string)` pairs. -/
def keyGt (p q : (Nat × Nat) × String) : Bool :=
  fracLt q.1 p.1 || (fracEq p.1 q.1 && charsLt q.2.data p.2.data)

/-- Stable descending insertion. -/
def insDesc (x : (Nat × Nat) × String) :
    List ((Nat × Nat) × String) → List ((Nat × Nat) × String)
  | [] => [x]
  | y :: ys => if keyGt y x then y :: insDesc x ys else x :: y :: ys

/-- Stable descending insertion sort, the order `sorted(·, reverse=True)`
produces. -/
def sortDesc : List ((Nat × Nat) × String) → List ((Nat × Nat) × String)
  | [] => []
  | x :: xs => insDesc x (sortDesc xs)

/-! ### difflib.get_close_matches and RetrievalSystem
(src/barista_buddy.py lines 81-95) -/

/-- The `(score, possibility)` list `get_close_matches` builds from the
entries whose ratio clears the cutoff; the `real_quick_ratio` and
`quick_ratio` pre-filters of the source are upper bounds of `ratio` and
therefore equivalent to the single `ratio ≥ cutoff` test embedded here. -/
def candList (word : String) (poss : List String) (cutoff : Nat × Nat) :
    List ((Nat × Nat) × String) :=
  poss.filterMap (fun x =>
    if fracLe cutoff (simPair x.data word.data) then some (simPair x.data word.data, x)
    else none)

/-- Embedding of `difflib.get_close_matches(word, possibilities, n,
cutoff)`.  `none` models the `ValueError` raised for `n ≤ 0` or a cutoff
outside `[0, 1]` (the cutoff is a fraction pair; a zero denominator or a
value above one is rejected, negative values are not representable). -/
def getCloseMatches (word : String) (poss : List String) (n : Nat) (cutoff : Nat × Nat) :
    Option (List String) :=
  if n = 0 then none
  else if cutoff.2 = 0 || cutoff.2 < cutoff.1 then none
  else some (((sortDesc (candList word poss cutoff)).take n).map Prod.snd)

/-- One JSON record of the knowledge base; `none` models a missing field
(`item.get` supplies `""` for it). -/
structure KnowledgeItem where
  question : Option String
  answer : Option String

/-- Embedding of Python dict assignment `d[k] = v` on an
insertion-ordered association list: overwrite in place when the key
exists, append otherwise. -/
def dictInsert (d : List (String × String)) (k v : String) : List (String × String) :=
  if d.any (fun p => p.1 == k) then d.map (fun p => if p.1 == k then (p.1, v) else p)
  else d ++ [(k, v)]

/-- Embedding of `RetrievalSystem.__init__`: build `knowledge_dict`,
keeping only records whose lower-cased question and whose answer are both
non-empty. -/
def loadKnowledge (items : List KnowledgeItem) : List (String × String) :=
  items.foldl (fun d item =>
    let q := pyLower (item.question.getD "")
    let a := item.answer.getD ""
    if (q != "") && (a != "") then dictInsert d q a else d) []

/-- The invariant of the loaded `knowledge_dict`: non-empty question and
answer, lower-cased question key. -/
def goodPair (p : String × String) : Prop :=
  p.1 ≠ "" ∧ p.2 ≠ "" ∧ pyLower p.1 = p.1

/-- Python `d[k]` for a key known to be present (defaults to `""`,
which no call site reaches). -/
def dictGet (d : List (String × String)) (k : String) : String :=
  ((d.find? (fun p => p.1 == k)).map Prod.snd).getD ""

/-- Embedding of `RetrievalSystem.retrieve`: lower-case the query, run
`get_close_matches` over the stored keys, and return the matched
`(question, answer)` entries. -/
def retrieve (d : List (String × String)) (cutoff : Nat × Nat) (query : String) (topk : Nat) :
    Option (List (String × String)) :=
  (getCloseMatches (pyLower query) (d.map Prod.fst) topk cutoff).map
    (fun ms => ms.map (fun k => (k, dictGet d k)))

/-- Loop body of the modular `retrieve`: keep `(best_score, best_answer)`,
updating on strict improvement only.  The score is
`self.similarity(query.lower(), item["question"].lower())`, i.e. `seq1` is
the query and `seq2` the stored question. -/
def bestStep (query : String) (acc : (Nat × Nat) × Option String) (item : String × String) :
    (Nat × Nat) × Option String :=
  if fracLt acc.1 (simPair (pyLower query).data (pyLower item.1).data) then
    (simPair (pyLower query).data (pyLower item.1).data, some item.2)
  else acc

/-- Embedding of the modular `RetrievalSystem.retrieve`
(src/barista-buddy/src/retrieval_system.py): single best answer by strict
improvement over the scan, returned only when `best_score > 0.5`. -/
def retrieveModular (knowledge : List (String × String)) (query : String) : Option String :=
  let best := knowledge.foldl (bestStep query) ((0, 1), none)
  if fracLt (1, 2) best.1 then best.2 else none

/-! ### Pipeline orchestrator (src/barista_buddy.py lines 132-179) -/

/-- The loaded, immutable state `BaristaBuddy.__init__` builds; the program
constructs it with `cutoff = 0.5`. -/
structure BuddyState where
  pron : List (String × PronVal)
  keywords : List String
  kdict : List (String × String)
  cutoff : Nat × Nat

/-- Result of one `process_query` call, instrumented with the arguments of
every call that crossed into the retrieval component and into the LLM
fallback collaborator, in order. -/
structure QueryTrace where
  answer : String
  retrievalCalls : List String
  llmCalls : List String
deriving DecidableEq

/-- The fixed refusal message of `BaristaBuddy.process_query`. -/
def refusalMessage : String :=
  "Sorry, I can only help with coffee-related questions."

/-- Embedding of `BaristaBuddy.process_query`: normalize, admission-check,
retrieve with the default `top_k = 3`, fall back to the LLM collaborator
`llm`.  `none` models an uncaught exception from a stage. -/
def process_query (st : BuddyState) (llm : String → String) (q0 : String) : Option QueryTrace :=
  match correct_text st.pron q0 with
  | none => none
  | some q =>
    if is_coffee_related st.keywords q = false then
      some ⟨refusalMessage, [], []⟩
    else
      match retrieve st.kdict st.cutoff q 3 with
      | none => none
      | some (r :: _) => some ⟨r.2, [q], []⟩
      | some [] => some ⟨llm q, [q], [q]⟩

/-! ### Lemmas: lower-casing -/

theorem map_id_of_mem {α : Type} {l : List α} {f : α → α} (h : ∀ c ∈ l, f c = c) :
    l.map f = l := by
  induction l with
  | nil => rfl
  | cons c cs ih =>
    simp only [List.map_cons, h c (by simp)]
    rw [ih (fun d hd => h d (by simp [hd]))]

theorem charOfNat_toNat {n : ℕ} (h : n.isValidChar) : (Char.ofNat n).toNat = n := by
  simp only [Char.ofNat, dif_pos h]
  rfl

theorem lowerChar_toNat_of_upper {c : Char} (h : 65 ≤ c.toNat ∧ c.toNat ≤ 90) :
    (lowerChar c).toNat = c.toNat + 32 := by
  unfold lowerChar
  rw [if_pos h, charOfNat_toNat (Or.inl (by omega))]

theorem lowerChar_eq_self {c : Char} (h : ¬(65 ≤ c.toNat ∧ c.toNat ≤ 90)) :
    lowerChar c = c := by
  unfold lowerChar
  rw [if_neg h]

theorem lowerChar_idem (c : Char) : lowerChar (lowerChar c) = lowerChar c := by
  by_cases h : 65 ≤ c.toNat ∧ c.toNat ≤ 90
  · have ht : (lowerChar c).toNat = c.toNat + 32 := lowerChar_toNat_of_upper h
    exact lowerChar_eq_self (by omega)
  · rw [lowerChar_eq_self h, lowerChar_eq_self h]

theorem string_mk_data (s : String) : String.mk s.data = s := rfl

theorem pyLower_idem (s : String) : pyLower (pyLower s) = pyLower s := by
  apply String.ext
  show (s.data.map lowerChar).map lowerChar = s.data.map lowerChar
  rw [List.map_map]
  exact List.map_congr_left (fun c _ => lowerChar_idem c)

theorem pyLower_eq_self {s : String} (h : ∀ c ∈ s.data, lowerChar c = c) :
    pyLower s = s := by
  apply String.ext
  show s.data.map lowerChar = s.data
  exact map_id_of_mem h

theorem mem_pyLower_lower {s : String} {c : Char} (h : c ∈ (pyLower s).data) :
    lowerChar c = c := by
  simp only [pyLower] at h
  obtain ⟨d, _, rfl⟩ := List.mem_map.mp h
  exact lowerChar_idem d

/-! ### Lemmas: substring test -/

theorem substrB_nil (t : List Char) : substrB [] t = true := by
  cases t with
  | nil => rfl
  | cons c rest => simp [substrB, List.isPrefixOf]

theorem prefixB_iff {p t : List Char} : p.isPrefixOf t = true ↔ p <+: t :=
  List.isPrefixOf_iff_prefix

theorem prefix_to_within {p t : List Char} (h : p <+: t) : p <:+: t := by
  obtain ⟨s, hs⟩ := h
  exact ⟨[], s, by simpa using hs⟩

theorem nil_within (l : List Char) : [] <:+: l :=
  ⟨[], l, rfl⟩

theorem substrB_iff (p t : List Char) : substrB p t = true ↔ p <:+: t := by
  induction t with
  | nil =>
    simp [substrB, List.isEmpty_iff, List.infix_nil]
  | cons c rest ih =>
    simp only [substrB, Bool.or_eq_true, prefixB_iff, ih,
      List.infix_cons_iff]

/-! ### Lemmas: Python replace -/

theorem repGo_fuel_ge {old new : List Char} :
    ∀ (s : List Char) (k : Nat), s.length ≤ k → repGo old new k s = [] := by
  intro s
  induction s with
  | nil => intro k _; cases k <;> rfl
  | cons c rest ih =>
    intro k hk
    cases k with
    | zero => simp at hk
    | succ k' => exact ih k' (by simpa using hk)

theorem repGo_absent {old new : List Char} :
    ∀ s : List Char, ¬(old <:+: s) → repGo old new 0 s = s := by
  intro s
  induction s with
  | nil => intro _; rfl
  | cons c rest ih =>
    intro h
    have hpre : old.isPrefixOf (c :: rest) = false := by
      apply Bool.eq_false_iff.mpr
      intro hb
      exact h (prefix_to_within (prefixB_iff.mp hb))
    simp only [repGo, hpre, Bool.false_eq_true, if_false]
    rw [ih (fun hi => h (List.infix_cons hi))]

theorem pyReplaceL_absent {s old new : List Char} (h : ¬(old <:+: s)) :
    pyReplaceL s old new = s := by
  unfold pyReplaceL
  cases old with
  | nil => exact absurd (nil_within s) h
  | cons o os => simpa [List.isEmpty] using repGo_absent s h

theorem pyReplaceL_self (s new : List Char) : pyReplaceL s s new = new := by
  unfold pyReplaceL
  cases s with
  | nil => simp
  | cons c rest =>
    have hpre : (c :: rest).isPrefixOf (c :: rest) = true :=
      prefixB_iff.mpr (List.prefix_refl _)
    simp only [List.isEmpty, repGo, hpre, if_true]
    rw [List.length_cons, Nat.add_sub_cancel, repGo_fuel_ge rest rest.length (le_refl _)]
    simp

theorem repGo_mem {old new : List Char} :
    ∀ (s : List Char) (k : Nat) (x : Char), x ∈ repGo old new k s → x ∈ s ∨ x ∈ new := by
  intro s
  induction s with
  | nil => intro k x hx; cases k <;> simp [repGo] at hx
  | cons c rest ih =>
    intro k x hx
    cases k with
    | succ k' =>
      rcases ih k' x hx with h | h
      · exact Or.inl (List.mem_cons_of_mem c h)
      · exact Or.inr h
    | zero =>
      by_cases hpre : old.isPrefixOf (c :: rest) = true
      · simp only [repGo, hpre, if_true] at hx
        rcases List.mem_append.mp hx with h | h
        · exact Or.inr h
        · rcases ih _ x h with h2 | h2
          · exact Or.inl (List.mem_cons_of_mem c h2)
          · exact Or.inr h2
      · rw [Bool.not_eq_true] at hpre
        simp only [repGo, hpre, Bool.false_eq_true, if_false, List.mem_cons] at hx
        rcases hx with h | h
        · exact Or.inl (by simp [h])
        · rcases ih 0 x h with h2 | h2
          · exact Or.inl (List.mem_cons_of_mem c h2)
          · exact Or.inr h2

theorem pyReplaceL_mem {s old new : List Char} {x : Char}
    (h : x ∈ pyReplaceL s old new) : x ∈ s ∨ x ∈ new := by
  unfold pyReplaceL at h
  by_cases he : old.isEmpty = true
  · rw [if_pos he] at h
    rcases List.mem_append.mp h with h2 | h2
    · exact Or.inr h2
    · obtain ⟨c, hc, hx⟩ := List.mem_flatMap.mp h2
      rcases List.mem_cons.mp hx with h3 | h3
      · exact Or.inl (h3 ▸ hc)
      · exact Or.inr h3
  · rw [if_neg he] at h
    exact repGo_mem s 0 x h

/-! ### Lemmas: correct_text -/

theorem foldStep_none (l : List (String × PronVal)) :
    l.foldl (fun acc e => acc.bind (fun t => correctStep t e.1 e.2)) none = none := by
  induction l with
  | nil => rfl
  | cons e es ih => simpa using ih

theorem correctStep_ok {t w : String} {v : PronVal} (h : entryOk v = true) :
    ∃ t', correctStep t w v = some t' := by
  cases v with
  | vstr c => exact ⟨_, rfl⟩
  | vother => exact ⟨_, rfl⟩
  | vlist l =>
    cases l with
    | nil => simp [entryOk] at h
    | cons hd tl => cases hd <;> exact ⟨_, rfl⟩

theorem fold_some_entryOk :
    ∀ (l : List (String × PronVal)) (t y : String),
      l.foldl (fun acc e => acc.bind (fun t => correctStep t e.1 e.2)) (some t) = some y →
      ∀ e ∈ l, entryOk e.2 = true := by
  intro l
  induction l with
  | nil => intro t y _ e he; simp at he
  | cons e es ih =>
    intro t y hf f hfmem
    rw [List.foldl_cons, Option.some_bind] at hf
    by_cases hok : entryOk e.2 = true
    · obtain ⟨t', ht'⟩ := correctStep_ok (t := t) (w := e.1) hok
      rcases List.mem_cons.mp hfmem with rfl | hmem
      · exact hok
      · exact ih t' y (by rwa [ht'] at hf) f hmem
    · exfalso
      have hnone : correctStep t e.1 e.2 = none := by
        rcases e with ⟨w, v⟩
        cases v with
        | vstr c => simp [entryOk] at hok
        | vother => simp [entryOk] at hok
        | vlist l2 =>
          cases l2 with
          | nil => rfl
          | cons hd tl => simp [entryOk] at hok
      rw [hnone, foldStep_none] at hf
      exact Option.noConfusion hf

theorem correct_text_entryOk {pron : List (String × PronVal)} {x y : String}
    (h : correct_text pron x = some y) : ∀ e ∈ pron, entryOk e.2 = true :=
  fold_some_entryOk pron (pyLower x) y h

theorem fold_some_of_ok :
    ∀ (l : List (String × PronVal)) (t : String),
      (∀ e ∈ l, entryOk e.2 = true) →
      ∃ y, l.foldl (fun acc e => acc.bind (fun t => correctStep t e.1 e.2)) (some t) = some y := by
  intro l
  induction l with
  | nil => intro t _; exact ⟨t, rfl⟩
  | cons e es ih =>
    intro t h
    obtain ⟨t', ht'⟩ := correctStep_ok (t := t) (w := e.1) (h e (by simp))
    obtain ⟨y, hy⟩ := ih t' (fun f hf => h f (by simp [hf]))
    exact ⟨y, by rw [List.foldl_cons, Option.some_bind, ht']; exact hy⟩

theorem correct_text_total {pron : List (String × PronVal)}
    (h : ∀ e ∈ pron, entryOk e.2 = true) (x : String) :
    ∃ y, correct_text pron x = some y :=
  fold_some_of_ok pron (pyLower x) h

theorem correctStep_id {t w : String} {v : PronVal} (hok : entryOk v = true)
    (h : ∀ c, effRepl v = some c → ¬((pyLower w).data <:+: t.data)) :
    correctStep t w v = some t := by
  cases v with
  | vstr c =>
    simp only [correctStep, Option.some.injEq]
    apply String.ext
    exact pyReplaceL_absent (h c rfl)
  | vother => rfl
  | vlist l =>
    cases l with
    | nil => simp [entryOk] at hok
    | cons hd tl =>
      cases hd with
      | vstr c =>
        simp only [correctStep, Option.some.injEq]
        apply String.ext
        exact pyReplaceL_absent (h c rfl)
      | vlist l2 => rfl
      | vother => rfl

theorem fold_id :
    ∀ (l : List (String × PronVal)) (t : String),
      (∀ e ∈ l, correctStep t e.1 e.2 = some t) →
      l.foldl (fun acc e => acc.bind (fun s => correctStep s e.1 e.2)) (some t) = some t := by
  intro l
  induction l with
  | nil => intro t _; rfl
  | cons e es ih =>
    intro t h
    rw [List.foldl_cons, Option.some_bind, h e (by simp)]
    exact ih t (fun f hf => h f (by simp [hf]))

theorem correctStep_lower {t t' w : String} {v : PronVal}
    (hl : ∀ c ∈ t.data, lowerChar c = c)
    (hs : correctStep t w v = some t') :
    ∀ c ∈ t'.data, lowerChar c = c := by
  have hrep : ∀ cc : String,
      (∀ d ∈ (pyReplace t (pyLower w) (pyLower cc)).data, lowerChar d = d) := by
    intro cc d hd
    rcases pyReplaceL_mem hd with h2 | h2
    · exact hl d h2
    · exact mem_pyLower_lower h2
  cases v with
  | vstr c =>
    simp only [correctStep, Option.some.injEq] at hs
    subst hs
    exact hrep c
  | vother =>
    simp only [correctStep, Option.some.injEq] at hs
    subst hs
    exact hl
  | vlist l =>
    cases l with
    | nil => exact Option.noConfusion hs
    | cons hd tl =>
      cases hd with
      | vstr c =>
        simp only [correctStep, Option.some.injEq] at hs
        subst hs
        exact hrep c
      | vlist l2 =>
        simp only [correctStep, Option.some.injEq] at hs
        subst hs
        exact hl
      | vother =>
        simp only [correctStep, Option.some.injEq] at hs
        subst hs
        exact hl

theorem fold_lower :
    ∀ (l : List (String × PronVal)) (t y : String),
      (∀ c ∈ t.data, lowerChar c = c) →
      l.foldl (fun acc e => acc.bind (fun t => correctStep t e.1 e.2)) (some t) = some y →
      ∀ c ∈ y.data, lowerChar c = c := by
  intro l
  induction l with
  | nil =>
    intro t y hl hf
    rw [List.foldl_nil, Option.some.injEq] at hf
    exact hf ▸ hl
  | cons e es ih =>
    intro t y hl hf
    rw [List.foldl_cons, Option.some_bind] at hf
    cases hs : correctStep t e.1 e.2 with
    | none =>
      rw [hs, foldStep_none] at hf
      exact Option.noConfusion hf
    | some t' =>
      rw [hs] at hf
      exact ih t' y (correctStep_lower hl hs) hf

theorem correct_text_lower {pron : List (String × PronVal)} {x y : String}
    (h : correct_text pron x = some y) : pyLower y = y :=
  pyLower_eq_self (fold_lower pron (pyLower x) y (fun _ hc => mem_pyLower_lower hc) h)

/-! ### Lemmas: character-list comparison -/

theorem charsLt_asymm : ∀ (a b : List Char), charsLt a b = true → charsLt b a = false
  | [], [] => by simp [charsLt]
  | [], _ :: _ => by simp [charsLt]
  | _ :: _, [] => by simp [charsLt]
  | x :: xs, y :: ys => by
    intro h
    simp only [charsLt] at h ⊢
    rcases lt_trichotomy x y with hlt | heq | hgt
    · rw [if_neg (lt_asymm hlt), if_pos hlt]
    · subst heq
      rw [if_neg (lt_irrefl x)] at h ⊢
      rw [if_neg (lt_irrefl x)] at h ⊢
      exact charsLt_asymm xs ys h
    · rw [if_neg (lt_asymm hgt), if_pos hgt] at h
      exact absurd h (by simp)

theorem charsLt_negtrans : ∀ (a b c : List Char),
    charsLt a c = true → charsLt a b = true ∨ charsLt b c = true
  | [], b, [] => by intro h; simp [charsLt] at h
  | [], [], _ :: _ => by intro _; exact Or.inr (by simp [charsLt])
  | [], _ :: _, _ :: _ => by intro _; exact Or.inl (by simp [charsLt])
  | _ :: _, b, [] => by intro h; simp [charsLt] at h
  | x :: xs, [], z :: cs => by intro _; exact Or.inr (by simp [charsLt])
  | x :: xs, y :: bs, z :: cs => by
    intro h
    simp only [charsLt] at h ⊢
    by_cases hxy : x < y
    · exact Or.inl (by rw [if_pos hxy])
    · by_cases hyz : y < z
      · exact Or.inr (by rw [if_pos hyz])
      · have hzy : z ≤ y := not_lt.mp hyz
        have hyx : y ≤ x := not_lt.mp hxy
        have hzx : z ≤ x := le_trans hzy hyx
        rw [if_neg (not_lt.mpr hzx)] at h
        by_cases hzltx : z < x
        · rw [if_pos hzltx] at h
          exact absurd h (by simp)
        · rw [if_neg hzltx] at h
          have hxez : x = z := le_antisymm (not_lt.mp hzltx) hzx
          have hxey : x = y := le_antisymm (hxez ▸ hzy) hyx
          rcases charsLt_negtrans xs bs cs h with h2 | h2
          · exact Or.inl (by rw [if_neg (hxey ▸ lt_irrefl x), if_neg (hxey ▸ lt_irrefl x)]; exact h2)
          · refine Or.inr ?_
            have hyez : y = z := hxey ▸ hxez
            rw [if_neg (hyez ▸ lt_irrefl y), if_neg (hyez ▸ lt_irrefl y)]
            exact h2

/-! ### Lemmas: exact fractions -/

theorem fracLe_iff {p q : Nat × Nat} (hp : 0 < p.2) (hq : 0 < q.2) :
    fracLe p q = true ↔ fracQ p ≤ fracQ q := by
  rw [fracLe, decide_eq_true_iff, fracQ, fracQ,
    div_le_div_iff₀ (by exact_mod_cast hp) (by exact_mod_cast hq)]
  exact_mod_cast Iff.rfl

theorem fracLt_iff {p q : Nat × Nat} (hp : 0 < p.2) (hq : 0 < q.2) :
    fracLt p q = true ↔ fracQ p < fracQ q := by
  rw [fracLt, decide_eq_true_iff, fracQ, fracQ,
    div_lt_div_iff₀ (by exact_mod_cast hp) (by exact_mod_cast hq)]
  exact_mod_cast Iff.rfl

theorem fracEq_iff {p q : Nat × Nat} (hp : 0 < p.2) (hq : 0 < q.2) :
    fracEq p q = true ↔ fracQ p = fracQ q := by
  rw [fracEq, decide_eq_true_iff, fracQ, fracQ,
    div_eq_div_iff (Nat.cast_ne_zero.mpr hp.ne') (Nat.cast_ne_zero.mpr hq.ne')]
  exact_mod_cast Iff.rfl

theorem simPair_den_pos (a b : List Char) : 0 < (simPair a b).2 := by
  unfold simPair
  by_cases h : a.length + b.length = 0
  · rw [if_pos h]; exact Nat.one_pos
  · rw [if_neg h]; exact Nat.pos_of_ne_zero h

/-! ### Lemmas: the descending sort -/

theorem keyGt_iff {p q : (Nat × Nat) × String} (hp : 0 < p.1.2) (hq : 0 < q.1.2) :
    keyGt p q = true ↔
      (fracQ q.1 < fracQ p.1 ∨
        (fracQ p.1 = fracQ q.1 ∧ charsLt q.2.data p.2.data = true)) := by
  unfold keyGt
  rw [Bool.or_eq_true, Bool.and_eq_true, fracLt_iff hq hp, fracEq_iff hp hq]

theorem keyGt_false_iff {p q : (Nat × Nat) × String} (hp : 0 < p.1.2) (hq : 0 < q.1.2) :
    keyGt p q = false ↔
      fracQ p.1 ≤ fracQ q.1 ∧
        (fracQ p.1 = fracQ q.1 → charsLt q.2.data p.2.data = false) := by
  rw [Bool.eq_false_iff, Ne, keyGt_iff hp hq]
  push_neg
  simp only [Bool.not_eq_true]

theorem keyGt_asymm {p q : (Nat × Nat) × String} (hp : 0 < p.1.2) (hq : 0 < q.1.2)
    (h : keyGt p q = true) : keyGt q p = false := by
  rw [keyGt_iff hp hq] at h
  rw [keyGt_false_iff hq hp]
  rcases h with hlt | ⟨he, hc⟩
  · exact ⟨le_of_lt hlt, fun he2 => absurd hlt (he2 ▸ lt_irrefl _)⟩
  · exact ⟨le_of_eq he.symm, fun _ => charsLt_asymm _ _ hc⟩

theorem keyGt_trans_false {p q r : (Nat × Nat) × String}
    (hp : 0 < p.1.2) (hq : 0 < q.1.2) (hr : 0 < r.1.2)
    (h1 : keyGt q p = false) (h2 : keyGt r q = false) : keyGt r p = false := by
  rw [keyGt_false_iff hq hp] at h1
  rw [keyGt_false_iff hr hq] at h2
  rw [keyGt_false_iff hr hp]
  obtain ⟨hle1, htie1⟩ := h1
  obtain ⟨hle2, htie2⟩ := h2
  refine ⟨le_trans hle2 hle1, fun he => ?_⟩
  have heq1 : fracQ q.1 = fracQ p.1 := le_antisymm hle1 (he ▸ hle2)
  have heq2 : fracQ r.1 = fracQ q.1 := he ▸ heq1.symm
  have hc1 := htie1 heq1
  have hc2 := htie2 heq2
  rcases hc : charsLt p.2.data r.2.data with _ | _
  · rfl
  · rcases charsLt_negtrans p.2.data q.2.data r.2.data hc with h3 | h3
    · rw [hc1] at h3
      exact Bool.noConfusion h3
    · rw [hc2] at h3
      exact Bool.noConfusion h3

theorem insDesc_perm (x : (Nat × Nat) × String) (l : List ((Nat × Nat) × String)) :
    (insDesc x l).Perm (x :: l) := by
  induction l with
  | nil => exact List.Perm.refl _
  | cons y ys ih =>
    unfold insDesc
    by_cases h : keyGt y x = true
    · rw [if_pos h]
      exact (ih.cons y).trans (List.Perm.swap x y ys)
    · rw [if_neg h]

theorem sortDesc_perm (l : List ((Nat × Nat) × String)) : (sortDesc l).Perm l := by
  induction l with
  | nil => exact List.Perm.refl _
  | cons x xs ih => exact (insDesc_perm x (sortDesc xs)).trans (ih.cons x)

theorem insDesc_pairwise {x : (Nat × Nat) × String} {l : List ((Nat × Nat) × String)}
    (hx : 0 < x.1.2) (hl : ∀ y ∈ l, 0 < y.1.2)
    (h : l.Pairwise (fun a b => keyGt b a = false)) :
    (insDesc x l).Pairwise (fun a b => keyGt b a = false) := by
  induction l with
  | nil => exact List.pairwise_singleton _ _
  | cons y ys ih =>
    rw [List.pairwise_cons] at h
    obtain ⟨hy, hys⟩ := h
    unfold insDesc
    by_cases hk : keyGt y x = true
    · rw [if_pos hk, List.pairwise_cons]
      refine ⟨fun z hz => ?_, ih (fun z hz => hl z (by simp [hz])) hys⟩
      rcases List.mem_cons.mp ((insDesc_perm x ys).mem_iff.mp hz) with rfl | hz3
      · exact keyGt_asymm (hl y (by simp)) hx hk
      · exact hy z hz3
    · rw [if_neg hk, List.pairwise_cons]
      have hkf : keyGt y x = false := Bool.eq_false_iff.mpr hk
      refine ⟨fun z hz => ?_, List.Pairwise.cons hy hys⟩
      rcases List.mem_cons.mp hz with rfl | hz3
      · exact hkf
      · exact keyGt_trans_false hx (hl y (by simp)) (hl z (by simp [hz3])) hkf (hy z hz3)

theorem sortDesc_pairwise {l : List ((Nat × Nat) × String)}
    (hl : ∀ y ∈ l, 0 < y.1.2) :
    (sortDesc l).Pairwise (fun a b => keyGt b a = false) := by
  induction l with
  | nil => exact List.Pairwise.nil
  | cons x xs ih =>
    unfold sortDesc
    refine insDesc_pairwise (hl x (by simp)) ?_ (ih (fun y hy => hl y (by simp [hy])))
    intro y hy
    exact hl y (by simp [(sortDesc_perm xs).mem_iff.mp hy])

/-! ### Lemmas: find_longest_match bounds and fuel independence -/

theorem flmPick_cases (best : Nat × Nat × Nat) (l : List (Nat × Nat × Nat)) :
    flmPick best l = best ∨ flmPick best l ∈ l := by
  induction l generalizing best with
  | nil => exact Or.inl rfl
  | cons c cs ih =>
    unfold flmPick
    rcases ih (if best.2.2 < c.2.2 then c else best) with h | h
    · rw [h]
      by_cases hc : best.2.2 < c.2.2
      · rw [if_pos hc]
        exact Or.inr (by simp)
      · rw [if_neg hc]
        exact Or.inl rfl
    · exact Or.inr (List.mem_cons_of_mem c h)

theorem mem_flmCands {a b : List Char} {alo ahi blo bhi : Nat} {t : Nat × Nat × Nat}
    (h : t ∈ flmCands a b alo ahi blo bhi) :
    alo ≤ t.1 ∧ t.1 < ahi ∧ blo ≤ t.2.1 ∧ t.2.1 < bhi ∧
      t.1 + t.2.2 ≤ ahi ∧ t.2.1 + t.2.2 ≤ bhi := by
  unfold flmCands at h
  obtain ⟨i, hi, h2⟩ := List.mem_flatMap.mp h
  obtain ⟨j, hj, rfl⟩ := List.mem_map.mp h2
  rw [List.mem_range'] at hi hj
  obtain ⟨ki, hki, hieq⟩ := hi
  obtain ⟨kj, hkj, hjeq⟩ := hj
  have hmin1 : min (cpl (a.drop i) (b.drop j)) (min (ahi - i) (bhi - j)) ≤ ahi - i :=
    le_trans (Nat.min_le_right _ _) (Nat.min_le_left _ _)
  have hmin2 : min (cpl (a.drop i) (b.drop j)) (min (ahi - i) (bhi - j)) ≤ bhi - j :=
    le_trans (Nat.min_le_right _ _) (Nat.min_le_right _ _)
  simp only
  omega

theorem flm_bounds {a b : List Char} {alo ahi blo bhi : Nat}
    (h : (findLongestMatch a b alo ahi blo bhi).2.2 ≠ 0) :
    alo ≤ (findLongestMatch a b alo ahi blo bhi).1 ∧
      (findLongestMatch a b alo ahi blo bhi).1 < ahi ∧
      blo ≤ (findLongestMatch a b alo ahi blo bhi).2.1 ∧
      (findLongestMatch a b alo ahi blo bhi).2.1 < bhi ∧
      (findLongestMatch a b alo ahi blo bhi).1 + (findLongestMatch a b alo ahi blo bhi).2.2 ≤ ahi ∧
      (findLongestMatch a b alo ahi blo bhi).2.1 + (findLongestMatch a b alo ahi blo bhi).2.2 ≤ bhi := by
  have hd : findLongestMatch a b alo ahi blo bhi =
      flmPick (alo, blo, 0) (flmCands a b alo ahi blo bhi) := rfl
  rcases flmPick_cases (alo, blo, 0) (flmCands a b alo ahi blo bhi) with h2 | h2
  · rw [hd, h2] at h
    simp at h
  · rw [hd]
    exact mem_flmCands h2

theorem matchTotalF_fuel (a b : List Char) :
    ∀ (f g alo ahi blo bhi : Nat),
      (ahi - alo) + (bhi - blo) < f → (ahi - alo) + (bhi - blo) < g →
      matchTotalF a b f alo ahi blo bhi = matchTotalF a b g alo ahi blo bhi := by
  intro f
  induction f with
  | zero => intro g alo ahi blo bhi hf _; omega
  | succ f ih =>
    intro g alo ahi blo bhi hf hg
    cases g with
    | zero => omega
    | succ g' =>
      simp only [matchTotalF]
      rcases ht : findLongestMatch a b alo ahi blo bhi with ⟨i, j, k⟩
      cases k with
      | zero => rfl
      | succ k' =>
        have hb := @flm_bounds a b alo ahi blo bhi (by rw [ht]; simp)
        rw [ht] at hb
        simp only at hb
        obtain ⟨h1, h2, h3, h4, h5, h6⟩ := hb
        show matchTotalF a b f alo i blo j + (k' + 1) +
            matchTotalF a b f (i + (k' + 1)) ahi (j + (k' + 1)) bhi =
          matchTotalF a b g' alo i blo j + (k' + 1) +
            matchTotalF a b g' (i + (k' + 1)) ahi (j + (k' + 1)) bhi
        rw [ih g' alo i blo j (by omega) (by omega),
          ih g' (i + (k' + 1)) ahi (j + (k' + 1)) bhi (by omega) (by omega)]

/-! ### Lemmas: candList, get_close_matches, retrieve -/

theorem mem_candList {word : String} {poss : List String} {cutoff : Nat × Nat}
    {p : (Nat × Nat) × String} :
    p ∈ candList word poss cutoff ↔
      p.2 ∈ poss ∧ p.1 = simPair p.2.data word.data ∧ fracLe cutoff p.1 = true := by
  rcases p with ⟨s, x⟩
  unfold candList
  rw [List.mem_filterMap]
  constructor
  · rintro ⟨y, hy, hfy⟩
    by_cases hc : fracLe cutoff (simPair y.data word.data) = true
    · rw [if_pos hc] at hfy
      injection hfy with hfy
      injection hfy with hfy1 hfy2
      subst hfy2
      subst hfy1
      exact ⟨hy, rfl, hc⟩
    · rw [if_neg hc] at hfy
      exact Option.noConfusion hfy
  · rintro ⟨hmem, hp1, hc⟩
    refine ⟨x, hmem, ?_⟩
    simp only at hp1
    subst hp1
    rw [if_pos hc]

theorem getCloseMatches_eq {word : String} {poss : List String} {n : Nat} {cutoff : Nat × Nat}
    (hn : n ≠ 0) (hden : cutoff.2 ≠ 0) (hle : cutoff.1 ≤ cutoff.2) :
    getCloseMatches word poss n cutoff =
      some (((sortDesc (candList word poss cutoff)).take n).map Prod.snd) := by
  unfold getCloseMatches
  rw [if_neg hn]
  have hguard : (decide (cutoff.2 = 0) || decide (cutoff.2 < cutoff.1)) = false := by
    simp [hden, not_lt.mpr hle]
  simp only [hguard, Bool.false_eq_true, if_false]

theorem retrieve_eq {d : List (String × String)} {cutoff : Nat × Nat} {q : String} {k : Nat}
    (hk : k ≠ 0) (hden : cutoff.2 ≠ 0) (hle : cutoff.1 ≤ cutoff.2) :
    retrieve d cutoff q k =
      some ((((sortDesc (candList (pyLower q) (d.map Prod.fst) cutoff)).take k).map
        Prod.snd).map (fun key => (key, dictGet d key))) := by
  unfold retrieve
  rw [getCloseMatches_eq hk hden hle]
  rfl

/-! ### Lemmas: the modular single-best retrieve -/

theorem foldBest_lt {query : String} {s : Nat × Nat} :
    ∀ (l : List (String × String)) (acc : (Nat × Nat) × Option String),
      fracLt acc.1 s = true →
      (∀ x ∈ l, fracLt (simPair (pyLower query).data (pyLower x.1).data) s = true) →
      fracLt (l.foldl (bestStep query) acc).1 s = true := by
  intro l
  induction l with
  | nil => intro acc h _; exact h
  | cons x xs ih =>
    intro acc h hall
    rw [List.foldl_cons]
    refine ih _ ?_ (fun y hy => hall y (by simp [hy]))
    unfold bestStep
    by_cases hc : fracLt acc.1 (simPair (pyLower query).data (pyLower x.1).data) = true
    · rw [if_pos hc]
      exact hall x (by simp)
    · rw [if_neg hc]
      exact h

theorem foldBest_noupdate {query : String} :
    ∀ (l : List (String × String)) (acc : (Nat × Nat) × Option String),
      (∀ x ∈ l, fracLt acc.1 (simPair (pyLower query).data (pyLower x.1).data) = false) →
      l.foldl (bestStep query) acc = acc := by
  intro l
  induction l with
  | nil => intro acc _; rfl
  | cons x xs ih =>
    intro acc h
    rw [List.foldl_cons]
    have hstep : bestStep query acc x = acc := by
      unfold bestStep
      rw [if_neg (by rw [h x (by simp)]; exact Bool.noConfusion)]
    rw [hstep]
    exact ih acc (fun y hy => h y (by simp [hy]))

/-! ### Lemmas: knowledge-base loading -/

theorem dictInsert_good {d : List (String × String)} {k v : String}
    (hd : ∀ p ∈ d, goodPair p) (hk : k ≠ "") (hkl : pyLower k = k) (hv : v ≠ "") :
    ∀ p ∈ dictInsert d k v, goodPair p := by
  intro p hp
  unfold dictInsert at hp
  by_cases hany : d.any (fun p => p.1 == k) = true
  · rw [if_pos hany] at hp
    obtain ⟨q, hq, hpq⟩ := List.mem_map.mp hp
    by_cases heq : (q.1 == k) = true
    · rw [if_pos heq] at hpq
      subst hpq
      exact ⟨(hd q hq).1, hv, (hd q hq).2.2⟩
    · rw [if_neg heq] at hpq
      subst hpq
      exact hd q hq
  · rw [if_neg hany] at hp
    rcases List.mem_append.mp hp with h | h
    · exact hd p h
    · rw [List.mem_singleton] at h
      subst h
      exact ⟨hk, hv, hkl⟩

theorem loadKnowledge_fold_good :
    ∀ (items : List KnowledgeItem) (d : List (String × String)),
      (∀ p ∈ d, goodPair p) →
      ∀ p ∈ items.foldl (fun d item =>
        if (pyLower (item.question.getD "") != "") && (item.answer.getD "" != "") then
          dictInsert d (pyLower (item.question.getD "")) (item.answer.getD "") else d) d,
      goodPair p := by
  intro items
  induction items with
  | nil => intro d hd p hp; exact hd p hp
  | cons item rest ih =>
    intro d hd p hp
    rw [List.foldl_cons] at hp
    refine ih _ ?_ p hp
    by_cases hc : ((pyLower (item.question.getD "") != "") &&
        (item.answer.getD "" != "")) = true
    · rw [if_pos hc]
      rw [Bool.and_eq_true, bne_iff_ne, bne_iff_ne] at hc
      exact dictInsert_good hd hc.1 (pyLower_idem _) hc.2
    · rw [if_neg hc]
      exact hd

theorem loadKnowledge_good (items : List KnowledgeItem) :
    ∀ p ∈ loadKnowledge items, goodPair p := by
  intro p hp
  refine loadKnowledge_fold_good items [] (by intro q hq; simp at hq) p ?_
  unfold loadKnowledge at hp
  convert hp using 2

theorem correctStep_fire {w0 : String} {v : PronVal} {c : String} (hv : effRepl v = some c) :
    correctStep (pyLower w0) w0 v = some (pyLower c) := by
  cases v with
  | vstr c2 =>
    injection hv with hv
    subst hv
    simp only [correctStep, Option.some.injEq]
    apply String.ext
    exact pyReplaceL_self _ _
  | vother => exact absurd hv (by simp [effRepl])
  | vlist l =>
    cases l with
    | nil => exact absurd hv (by simp [effRepl])
    | cons hd tl =>
      cases hd with
      | vstr c2 =>
        injection hv with hv
        subst hv
        simp only [correctStep, Option.some.injEq]
        apply String.ext
        exact pyReplaceL_self _ _
      | vlist l2 => exact absurd hv (by simp [effRepl])
      | vother => exact absurd hv (by simp [effRepl])

theorem variantFree_step {tbl : List (String × PronVal)} {y : String}
    (h : variantFree tbl y = true) {e : String × PronVal} (he : e ∈ tbl)
    {ce : String} (hce : effRepl e.2 = some ce) :
    ¬((pyLower e.1).data <:+: y.data) := by
  intro hinf
  have hall := List.all_eq_true.mp h e he
  rw [hce] at hall
  rw [Bool.not_eq_true'] at hall
  rw [(substrB_iff _ _).mpr hinf] at hall
  exact Bool.noConfusion hall

/-! ## The claims -/

/-- Claim C2: `is_coffee_related` reports the text as related if and only
if at least one keyword from the loaded set occurs as a substring of the
lower-cased text. -/
theorem c2_keyword_substring (keywords : List String) (text : String) :
    is_coffee_related keywords text = true ↔
      ∃ kw ∈ keywords, kw.data <:+: (pyLower text).data := by
  unfold is_coffee_related
  rw [List.any_eq_true]
  constructor
  · rintro ⟨kw, hkw, hs⟩
    exact ⟨kw, hkw, (substrB_iff _ _).mp hs⟩
  · rintro ⟨kw, hkw, hs⟩
    exact ⟨kw, hkw, (substrB_iff _ _).mpr hs⟩

/-- Claim C7 counterexample: even with an empty knowledge base, `retrieve`
with `top_k = 0` raises `ValueError` inside `get_close_matches` (modelled
by `none`) instead of returning an empty result, refuting the claim as
stated over "every top_k; neither raises". -/
theorem c7_counterexample :
    retrieve ([] : List (String × String)) (1, 2) "coffee" 0 = none := by decide

/-- Claim C7 (amended): with an empty keyword set, admission fails closed
on every input; with an empty knowledge base, `retrieve` returns an empty
result for every query and every `top_k ≥ 1` (with the configured cutoff
in range), and neither raises; `top_k = 0` is excluded because
`get_close_matches` raises `ValueError` on it regardless of the knowledge
base. -/
theorem c7_empty_collections (text query : String) (k : Nat) (cutoff : Nat × Nat)
    (hk : k ≠ 0) (hden : cutoff.2 ≠ 0) (hle : cutoff.1 ≤ cutoff.2) :
    is_coffee_related [] text = false ∧
      retrieve ([] : List (String × String)) cutoff query k = some [] := by
  refine ⟨rfl, ?_⟩
  rw [retrieve_eq hk hden hle]
  simp [candList, sortDesc]

theorem c7_empty_collections_witness :
    is_coffee_related [] "coffee" = false ∧
      retrieve ([] : List (String × String)) (1, 2) "latte" 1 = some [] :=
  c7_empty_collections "coffee" "latte" 1 (1, 2) (by decide) (by decide) (by decide)

/-- Claim C9: after loading, the queryable mapping contains only entries
whose question and answer are both non-empty — records with an empty or
missing question or answer are dropped — and every stored question key is
lower-cased (fixed by lower-casing). -/
theorem c9_load_invariant (items : List KnowledgeItem) :
    ∀ p ∈ loadKnowledge items, p.1 ≠ "" ∧ p.2 ≠ "" ∧ pyLower p.1 = p.1 :=
  loadKnowledge_good items

theorem c9_load_invariant_witness :
    ("q", "A") ∈ loadKnowledge
        [KnowledgeItem.mk (some "Q") (some "A"), KnowledgeItem.mk (some "") (some "x"),
          KnowledgeItem.mk none (some "y"), KnowledgeItem.mk (some "z") none] ∧
      ("q" ≠ "" ∧ "A" ≠ "" ∧ pyLower "q" = "q") := by
  refine ⟨by decide, ?_⟩
  exact c9_load_invariant
    [KnowledgeItem.mk (some "Q") (some "A"), KnowledgeItem.mk (some "") (some "x"),
      KnowledgeItem.mk none (some "y"), KnowledgeItem.mk (some "z") none] ("q", "A") (by decide)

/-- Claim C10: if the loaded keyword list contains the empty string — the
modular loader produces one from a blank line, since it strips lines but
does not discard empty results — then `is_coffee_related` returns related
for every input, including the empty string. -/
theorem c10_empty_keyword (lines : List String) (line : String) (text : String)
    (hline : line ∈ lines) (hblank : pyStrip line = "") :
    "" ∈ loadKeywordsModular lines ∧
      is_coffee_related (loadKeywordsModular lines) text = true := by
  have hmem : "" ∈ loadKeywordsModular lines :=
    List.mem_map.mpr ⟨line, hline, hblank⟩
  refine ⟨hmem, ?_⟩
  unfold is_coffee_related
  rw [List.any_eq_true]
  exact ⟨"", hmem, substrB_nil _⟩

theorem c10_empty_keyword_witness :
    "" ∈ loadKeywordsModular ["\n", "coffee\n"] ∧
      is_coffee_related (loadKeywordsModular ["\n", "coffee\n"]) "" = true :=
  c10_empty_keyword ["\n", "coffee\n"] "\n" "" (by decide) (by decide)

/-- Claim C8: for a well-formed loaded state (no empty-list pronunciation
value; the configured retrieval cutoff in range), none of the three core
stages raises on any string input: normalization and retrieval (at the
pipeline's `top_k = 3`) return a value, and admission is a total Boolean
function. -/
theorem c8_stages_total (pron : List (String × PronVal)) (keywords : List String)
    (d : List (String × String)) (cutoff : Nat × Nat) (text : String)
    (hok : ∀ e ∈ pron, entryOk e.2 = true)
    (hden : cutoff.2 ≠ 0) (hle : cutoff.1 ≤ cutoff.2) :
    (∃ y, correct_text pron text = some y) ∧
      (is_coffee_related keywords text = true ∨ is_coffee_related keywords text = false) ∧
      (∃ l, retrieve d cutoff text 3 = some l) :=
  ⟨correct_text_total hok text, Bool.eq_false_or_eq_true _,
    ⟨_, retrieve_eq (by decide) hden hle⟩⟩

theorem c8_stages_total_witness :
    (∃ y, correct_text [("expresso", PronVal.vstr "espresso")] "Expresso" = some y) ∧
      (is_coffee_related ["coffee"] "Expresso" = true ∨
        is_coffee_related ["coffee"] "Expresso" = false) ∧
      (∃ l, retrieve [("espresso", "shot")] (1, 2) "Expresso" 3 = some l) :=
  c8_stages_total [("expresso", PronVal.vstr "espresso")] ["coffee"]
    [("espresso", "shot")] (1, 2) "Expresso" (by decide) (by decide) (by decide)

/-- Claim C5 counterexample: in the loaded table
`[("expresso", "espresso"), ("press", "drip")]` the later entry rewrites
the canonical text the first substitution produced, so applying the
normalizer to the variant `"expresso"` yields `"esdripo"`, which does not
contain the canonical `"espresso"` as a substring. -/
theorem c5_counterexample :
    correct_text [("expresso", PronVal.vstr "espresso"), ("press", PronVal.vstr "drip")]
        "expresso" = some "esdripo" ∧
      substrB "espresso".data "esdripo".data = false := by decide

/-- Claim C5 (amended): for a canonical/variant pair such that no earlier
entry's variant occurs (case-insensitively) in the variant and no later
entry's variant occurs in the canonical (and no entry carries an
empty-list value), applying the normalizer to the variant yields exactly
the lower-cased canonical, which contains the lower-cased canonical as a
substring; without those provisos the counterexample refutes the claim. -/
theorem c5_variant_maps_to_canonical (pre post : List (String × PronVal))
    (w0 c : String) (v : PronVal) (hv : effRepl v = some c)
    (hok : ∀ e ∈ pre ++ (w0, v) :: post, entryOk e.2 = true)
    (hpre : variantFree pre (pyLower w0) = true)
    (hpost : variantFree post (pyLower c) = true) :
    correct_text (pre ++ (w0, v) :: post) w0 = some (pyLower c) ∧
      substrB (pyLower c).data (pyLower c).data = true := by
  refine ⟨?_, (substrB_iff _ _).mpr (List.infix_refl _)⟩
  unfold correct_text
  rw [List.foldl_append, List.foldl_cons]
  have hpreid : pre.foldl (fun acc e => acc.bind (fun t => correctStep t e.1 e.2))
      (some (pyLower w0)) = some (pyLower w0) := by
    apply fold_id
    intro e he
    apply correctStep_id (hok e (List.mem_append_left _ he))
    intro ce hce
    exact variantFree_step hpre he hce
  rw [hpreid, Option.some_bind, correctStep_fire hv]
  apply fold_id
  intro e he
  apply correctStep_id (hok e (List.mem_append_right _ (List.mem_cons_of_mem _ he)))
  intro ce hce
  exact variantFree_step hpost he hce

theorem c5_variant_maps_to_canonical_witness :
    correct_text [("expresso", PronVal.vstr "Espresso")] "expresso" = some "espresso" ∧
      substrB "espresso".data "espresso".data = true := by
  have h := c5_variant_maps_to_canonical [] [] "expresso" "Espresso"
    (PronVal.vstr "Espresso") rfl (by decide) (by decide) (by decide)
  have hp : pyLower "Espresso" = "espresso" := by decide
  rw [hp] at h
  exact h

/-- Claim C6: on any input whose normalized form contains no remaining
effective variant substring, `correct_text` is idempotent:
`correct_text (correct_text x) = correct_text x`. -/
theorem c6_idempotent (tbl : List (String × PronVal)) (x y : String)
    (hx : correct_text tbl x = some y)
    (hfix : variantFree tbl y = true) :
    correct_text tbl y = some y := by
  have hok := correct_text_entryOk hx
  have hlow : pyLower y = y := correct_text_lower hx
  unfold correct_text
  rw [hlow]
  apply fold_id
  intro e he
  apply correctStep_id (hok e he)
  intro ce hce
  exact variantFree_step hfix he hce

theorem c6_idempotent_witness :
    correct_text [("expresso", PronVal.vstr "espresso")] "espresso!" = some "espresso!" :=
  c6_idempotent [("expresso", PronVal.vstr "espresso")] "Expresso!" "espresso!"
    (by decide) (by decide)

/-- Claim C1: `process_query` first normalizes, then admission-checks; on
rejection it returns the fixed refusal message with no retrieval call and
no fallback call; on admission with a non-empty retrieval it returns the
top result's answer with no fallback call; otherwise it calls the fallback
collaborator exactly once, passing the normalized query, and returns its
response verbatim (the traced calls record every boundary crossing). -/
theorem c1_pipeline (st : BuddyState) (llm : String → String) (q0 q : String)
    (hn : correct_text st.pron q0 = some q)
    (hden : st.cutoff.2 ≠ 0) (hle : st.cutoff.1 ≤ st.cutoff.2) :
    (is_coffee_related st.keywords q = false →
       process_query st llm q0 = some ⟨refusalMessage, [], []⟩) ∧
    (∀ r rs, is_coffee_related st.keywords q = true →
       retrieve st.kdict st.cutoff q 3 = some (r :: rs) →
       process_query st llm q0 = some ⟨r.2, [q], []⟩) ∧
    (is_coffee_related st.keywords q = true →
       retrieve st.kdict st.cutoff q 3 = some [] →
       process_query st llm q0 = some ⟨llm q, [q], [q]⟩) ∧
    retrieve st.kdict st.cutoff q 3 ≠ none := by
  have hne : retrieve st.kdict st.cutoff q 3 ≠ none := by
    rw [retrieve_eq (by decide) hden hle]
    exact Option.noConfusion
  refine ⟨?_, ?_, ?_, hne⟩
  · intro hrej
    simp only [process_query, hn, if_pos hrej]
  · intro r rs hadm hret
    have hflag : ¬(is_coffee_related st.keywords q = false) := by
      rw [hadm]
      exact Bool.noConfusion
    simp only [process_query, hn, if_neg hflag, hret]
  · intro hadm hret
    have hflag : ¬(is_coffee_related st.keywords q = false) := by
      rw [hadm]
      exact Bool.noConfusion
    simp only [process_query, hn, if_neg hflag, hret]

theorem c1_pipeline_witness :
    process_query ⟨[], ["a"], [("aa", "ans")], (1, 2)⟩ (fun s => s) "AA" =
      some ⟨"ans", ["aa"], []⟩ := by
  have h := c1_pipeline ⟨[], ["a"], [("aa", "ans")], (1, 2)⟩ (fun s => s) "AA" "aa"
    (by decide) (by decide) (by decide)
  exact h.2.1 ("aa", "ans") [] (by decide) (by decide)

/-- Claim C3: for every query and `top_k ≥ 1` (with the configured cutoff
in range), `retrieve` returns exactly the stored entries whose similarity
score to the lower-cased query is at or above the cutoff — truncated to
the `top_k` highest-scoring — ordered by non-increasing score, with at
most `top_k` results, and an empty result when nothing clears the
cutoff. -/
theorem c3_retrieve_contract (d : List (String × String)) (cutoff : Nat × Nat)
    (q : String) (k : Nat) (hk : k ≠ 0) (hden : cutoff.2 ≠ 0) (hle : cutoff.1 ≤ cutoff.2) :
    ∀ l, retrieve d cutoff q k = some l →
      l.length ≤ k ∧
      (∀ p ∈ l, p.1 ∈ d.map Prod.fst ∧
        fracQ cutoff ≤ fracQ (simPair p.1.data (pyLower q).data)) ∧
      l.Pairwise (fun p1 p2 => fracQ (simPair p2.1.data (pyLower q).data) ≤
        fracQ (simPair p1.1.data (pyLower q).data)) ∧
      (∀ x ∈ d.map Prod.fst, fracQ cutoff ≤ fracQ (simPair x.data (pyLower q).data) →
        x ∈ l.map Prod.fst ∨
          (l.length = k ∧ ∀ p ∈ l, fracQ (simPair x.data (pyLower q).data) ≤
            fracQ (simPair p.1.data (pyLower q).data))) ∧
      ((∀ x ∈ d.map Prod.fst, fracQ (simPair x.data (pyLower q).data) < fracQ cutoff) →
        l = []) := by
  intro l hl
  rw [retrieve_eq hk hden hle] at hl
  injection hl with hl
  subst hl
  have hcpos : 0 < cutoff.2 := Nat.pos_of_ne_zero hden
  have hcd : ∀ p ∈ candList (pyLower q) (d.map Prod.fst) cutoff, 0 < p.1.2 := by
    intro p hp
    obtain ⟨_, hp1, _⟩ := mem_candList.mp hp
    rw [hp1]
    exact simPair_den_pos _ _
  have hsp := sortDesc_pairwise hcd
  have htkcand : ∀ p ∈ (sortDesc (candList (pyLower q) (d.map Prod.fst) cutoff)).take k,
      p ∈ candList (pyLower q) (d.map Prod.fst) cutoff := by
    intro p hp
    exact (sortDesc_perm _).mem_iff.mp (List.Sublist.mem hp (List.take_sublist _ _))
  have hlen : ((((sortDesc (candList (pyLower q) (d.map Prod.fst) cutoff)).take k).map
      Prod.snd).map (fun key => (key, dictGet d key))).length =
      min k (sortDesc (candList (pyLower q) (d.map Prod.fst) cutoff)).length := by
    rw [List.length_map, List.length_map, List.length_take]
  have hmemb : ∀ p ∈ (((sortDesc (candList (pyLower q) (d.map Prod.fst) cutoff)).take k).map
      Prod.snd).map (fun key => (key, dictGet d key)),
      ∃ pr ∈ (sortDesc (candList (pyLower q) (d.map Prod.fst) cutoff)).take k,
        p = (pr.2, dictGet d pr.2) := by
    intro p hp
    obtain ⟨key, hkey, hfp⟩ := List.mem_map.mp hp
    obtain ⟨pr, hpr, hsnd⟩ := List.mem_map.mp hkey
    subst hsnd
    exact ⟨pr, hpr, hfp.symm⟩
  have hb : ∀ p ∈ (((sortDesc (candList (pyLower q) (d.map Prod.fst) cutoff)).take k).map
      Prod.snd).map (fun key => (key, dictGet d key)),
      p.1 ∈ d.map Prod.fst ∧
        fracQ cutoff ≤ fracQ (simPair p.1.data (pyLower q).data) := by
    intro p hp
    obtain ⟨pr, hpr, rfl⟩ := hmemb p hp
    obtain ⟨hposs, hp1, hfle⟩ := mem_candList.mp (htkcand pr hpr)
    have hden2 : 0 < pr.1.2 := by
      rw [hp1]
      exact simPair_den_pos _ _
    have hsc := (fracLe_iff hcpos hden2).mp hfle
    rw [hp1] at hsc
    exact ⟨hposs, hsc⟩
  refine ⟨?_, hb, ?_, ?_, ?_⟩
  · rw [hlen]
    exact Nat.min_le_left _ _
  · -- non-increasing scores
    rw [List.map_map]
    rw [List.pairwise_map]
    have hptk := List.Pairwise.sublist (List.take_sublist k _) hsp
    refine List.Pairwise.imp_of_mem ?_ hptk
    intro pr1 pr2 h1 h2 hg
    obtain ⟨_, hp11, _⟩ := mem_candList.mp (htkcand pr1 h1)
    obtain ⟨_, hp21, _⟩ := mem_candList.mp (htkcand pr2 h2)
    have hd1 : 0 < pr1.1.2 := by rw [hp11]; exact simPair_den_pos _ _
    have hd2 : 0 < pr2.1.2 := by rw [hp21]; exact simPair_den_pos _ _
    have := ((keyGt_false_iff hd2 hd1).mp hg).1
    rw [hp11, hp21] at this
    exact this
  · -- completeness up to truncation
    intro x hx hsc
    have hfle : fracLe cutoff (simPair x.data (pyLower q).data) = true :=
      (fracLe_iff hcpos (simPair_den_pos _ _)).mpr hsc
    have hc : (simPair x.data (pyLower q).data, x) ∈
        candList (pyLower q) (d.map Prod.fst) cutoff :=
      mem_candList.mpr ⟨hx, rfl, hfle⟩
    have hs : (simPair x.data (pyLower q).data, x) ∈
        sortDesc (candList (pyLower q) (d.map Prod.fst) cutoff) :=
      (sortDesc_perm _).mem_iff.mpr hc
    rw [← List.take_append_drop k
      (sortDesc (candList (pyLower q) (d.map Prod.fst) cutoff))] at hs
    rcases List.mem_append.mp hs with hin | hin
    · refine Or.inl ?_
      refine List.mem_map.mpr ⟨(x, dictGet d x), ?_, rfl⟩
      refine List.mem_map.mpr ⟨x, ?_, rfl⟩
      exact List.mem_map.mpr ⟨(simPair x.data (pyLower q).data, x), hin, rfl⟩
    · refine Or.inr ⟨?_, ?_⟩
      · have hpos := List.length_pos.mpr (List.ne_nil_of_mem hin)
        rw [List.length_drop] at hpos
        rw [hlen]
        omega
      · intro p hp
        obtain ⟨pr, hpr, rfl⟩ := hmemb p hp
        have hpa := (List.pairwise_append.mp (by
          rw [List.take_append_drop]
          exact hsp)).2.2 pr hpr _ hin
        obtain ⟨_, hp11, _⟩ := mem_candList.mp (htkcand pr hpr)
        have hd1 : 0 < pr.1.2 := by rw [hp11]; exact simPair_den_pos _ _
        have := ((keyGt_false_iff (simPair_den_pos x.data (pyLower q).data) hd1).mp hpa).1
        rw [hp11] at this
        exact this
  · -- empty when nothing clears the cutoff
    intro hall
    rcases hcase : (((sortDesc (candList (pyLower q) (d.map Prod.fst) cutoff)).take k).map
        Prod.snd).map (fun key => (key, dictGet d key)) with _ | ⟨p, ps⟩
    · rfl
    · exfalso
      have hpmem : p ∈ (((sortDesc (candList (pyLower q) (d.map Prod.fst) cutoff)).take k).map
          Prod.snd).map (fun key => (key, dictGet d key)) := by
        rw [hcase]
        exact List.mem_cons_self _ _
      obtain ⟨hposs, hsc⟩ := hb p hpmem
      exact absurd hsc (not_le_of_lt (hall p.1 hposs))

theorem c3_retrieve_contract_witness :
    ([("aa", "ans")] : List (String × String)).length ≤ 1 :=
  ((c3_retrieve_contract [("aa", "ans")] (1, 2) "aa" 1 (by decide) (by decide) (by decide))
    [("aa", "ans")] (by decide)).1

/-- Claim C4 counterexample: for the knowledge base
`[("ab", "A1"), ("ac", "A2")]` and the query `"aa"`, both entries score
exactly `2/4`, yet `retrieve` returns them in the order
`[("ac", _), ("ab", _)]` — the reverse of the original knowledge-base
order — because `heapq.nlargest` compares the `(score, question)` tuples
and so breaks ties by the question string, not stably. -/
theorem c4_counterexample :
    simPair "ab".data "aa".data = simPair "ac".data "aa".data ∧
      retrieve [("ab", "A1"), ("ac", "A2")] (1, 2) "aa" 3 =
        some [("ac", "A2"), ("ab", "A1")] ∧
      [("ac", "A2"), ("ab", "A1")] ≠ [("ab", "A1"), ("ac", "A2")] := by decide

/-- Claim C4 (amended): when two or more entries have exactly equal
similarity scores, `retrieve` orders them by descending lexicographic
order of the stored question key (Python tuple comparison inside
`heapq.nlargest`), not by original knowledge-base order; the modular
single-best variant does select the earliest entry among maximal-score
ties, because it updates only on strict improvement. -/
theorem c4_tie_policy (d : List (String × String)) (cutoff : Nat × Nat)
    (q : String) (k : Nat) (hk : k ≠ 0) (hden : cutoff.2 ≠ 0) (hle : cutoff.1 ≤ cutoff.2) :
    (∀ l, retrieve d cutoff q k = some l →
      l.Pairwise (fun p1 p2 =>
        fracQ (simPair p1.1.data (pyLower q).data) =
          fracQ (simPair p2.1.data (pyLower q).data) →
        charsLt p1.1.data p2.1.data = false)) ∧
    (∀ (pre rest : List (String × String)) (q1 a1 mq : String),
      (∀ x ∈ pre, fracQ (simPair (pyLower mq).data (pyLower x.1).data) <
        fracQ (simPair (pyLower mq).data (pyLower q1).data)) →
      (∀ x ∈ rest, fracQ (simPair (pyLower mq).data (pyLower x.1).data) ≤
        fracQ (simPair (pyLower mq).data (pyLower q1).data)) →
      fracQ (1, 2) < fracQ (simPair (pyLower mq).data (pyLower q1).data) →
      retrieveModular (pre ++ (q1, a1) :: rest) mq = some a1) := by
  constructor
  · intro l hl
    rw [retrieve_eq hk hden hle] at hl
    injection hl with hl
    subst hl
    have hcd : ∀ p ∈ candList (pyLower q) (d.map Prod.fst) cutoff, 0 < p.1.2 := by
      intro p hp
      obtain ⟨_, hp1, _⟩ := mem_candList.mp hp
      rw [hp1]
      exact simPair_den_pos _ _
    have hsp := sortDesc_pairwise hcd
    have htkcand : ∀ p ∈ (sortDesc (candList (pyLower q) (d.map Prod.fst) cutoff)).take k,
        p ∈ candList (pyLower q) (d.map Prod.fst) cutoff := by
      intro p hp
      exact (sortDesc_perm _).mem_iff.mp (List.Sublist.mem hp (List.take_sublist _ _))
    rw [List.map_map, List.pairwise_map]
    have hptk := List.Pairwise.sublist (List.take_sublist k _) hsp
    refine List.Pairwise.imp_of_mem ?_ hptk
    intro pr1 pr2 h1 h2 hg
    obtain ⟨_, hp11, _⟩ := mem_candList.mp (htkcand pr1 h1)
    obtain ⟨_, hp21, _⟩ := mem_candList.mp (htkcand pr2 h2)
    have hd1 : 0 < pr1.1.2 := by rw [hp11]; exact simPair_den_pos _ _
    have hd2 : 0 < pr2.1.2 := by rw [hp21]; exact simPair_den_pos _ _
    intro heq
    refine ((keyGt_false_iff hd2 hd1).mp hg).2 ?_
    rw [hp11, hp21]
    exact heq.symm
  · intro pre rest q1 a1 mq hpre hrest hcut
    have hspos : 0 < (simPair (pyLower mq).data (pyLower q1).data).2 :=
      simPair_den_pos _ _
    have hcutB : fracLt (1, 2) (simPair (pyLower mq).data (pyLower q1).data) = true :=
      (fracLt_iff (by decide) hspos).mpr hcut
    have hnum : 0 < (simPair (pyLower mq).data (pyLower q1).data).1 := by
      have h2 := hcutB
      rw [fracLt, decide_eq_true_iff] at h2
      omega
    have hzero : fracLt ((0, 1) : Nat × Nat)
        (simPair (pyLower mq).data (pyLower q1).data) = true := by
      rw [fracLt]
      rw [decide_eq_true_iff]
      simpa using hnum
    have hpreB : ∀ x ∈ pre,
        fracLt (simPair (pyLower mq).data (pyLower x.1).data)
          (simPair (pyLower mq).data (pyLower q1).data) = true := by
      intro x hx
      exact (fracLt_iff (simPair_den_pos _ _) hspos).mpr (hpre x hx)
    have hrestB : ∀ x ∈ rest,
        fracLt (simPair (pyLower mq).data (pyLower q1).data)
          (simPair (pyLower mq).data (pyLower x.1).data) = false := by
      intro x hx
      apply Bool.eq_false_iff.mpr
      intro hbad
      have := (fracLt_iff hspos (simPair_den_pos _ _)).mp hbad
      exact absurd this (not_lt_of_le (hrest x hx))
    show (if fracLt (1, 2)
        ((pre ++ (q1, a1) :: rest).foldl (bestStep mq) ((0, 1), none)).1 = true then
          ((pre ++ (q1, a1) :: rest).foldl (bestStep mq) ((0, 1), none)).2
        else none) = some a1
    rw [List.foldl_append, List.foldl_cons]
    have hfold1 := foldBest_lt pre ((0, 1), none) hzero hpreB
    have hstep : bestStep mq (pre.foldl (bestStep mq) ((0, 1), none)) (q1, a1) =
        (simPair (pyLower mq).data (pyLower q1).data, some a1) := by
      show (if fracLt (pre.foldl (bestStep mq) ((0, 1), none)).1
          (simPair (pyLower mq).data (pyLower q1).data) = true then
          (simPair (pyLower mq).data (pyLower q1).data, some a1)
        else pre.foldl (bestStep mq) ((0, 1), none)) =
        (simPair (pyLower mq).data (pyLower q1).data, some a1)
      rw [if_pos hfold1]
    rw [hstep]
    rw [foldBest_noupdate rest _ hrestB]
    rw [if_pos hcutB]

theorem c4_tie_policy_witness :
    ([("ac", "A2"), ("ab", "A1")] : List (String × String)).Pairwise (fun p1 p2 =>
      fracQ (simPair p1.1.data (pyLower "aa").data) =
        fracQ (simPair p2.1.data (pyLower "aa").data) →
      charsLt p1.1.data p2.1.data = false) ∧
    retrieveModular [("ab", "A1"), ("ab", "A2")] "ab" = some "A1" := by
  have h := c4_tie_policy [("ab", "A1"), ("ac", "A2")] (1, 2) "aa" 3
    (by decide) (by decide) (by decide)
  refine ⟨h.1 [("ac", "A2"), ("ab", "A1")] (by decide), ?_⟩
  refine h.2 [] [("ab", "A2")] "ab" "A1" "ab" (by intro x hx; simp at hx) ?_ ?_
  · intro x hx
    have hx2 : x = ("ab", "A2") := List.mem_singleton.mp hx
    subst hx2
    exact le_refl _
  · exact (fracLt_iff (by decide) (simPair_den_pos _ _)).mp (by decide)

/-! ### Concrete evaluation checks of the embedding -/

example : simPair "ab".data "aa".data = (2, 4) := by decide
example : simPair "ac".data "aa".data = (2, 4) := by decide
example : simPair "aa".data "aa".data = (4, 4) := by decide
example : retrieve [("aa", "ans")] (1, 2) "AA" 3 = some [("aa", "ans")] := by decide
example : retrieveModular [("ab", "A1"), ("ac", "A2")] "ab" = some "A1" := by decide
example : retrieveModular [("xy", "A1")] "ab" = none := by decide
example : process_query ⟨[], ["a"], [("aa", "ans")], (1, 2)⟩ (fun s => s) "AA" =
    some ⟨"ans", ["aa"], []⟩ := by decide
example : process_query ⟨[], ["zz"], [("aa", "ans")], (1, 2)⟩ (fun s => s) "AA" =
    some ⟨refusalMessage, [], []⟩ := by decide
example : process_query ⟨[], ["a"], [], (1, 2)⟩ (fun s => String.append s "!") "AA" =
    some ⟨"aa!", ["aa"], ["aa"]⟩ := by decide
example : pyLower "AbC" = "abc" := by decide
example : substrB "es".data "espresso".data = true := by decide
example : substrB "xy".data "espresso".data = false := by decide
example : charsLt "ab".data "ac".data = true := by decide
example : pyStrip "  cof fee\n" = "cof fee" := by decide
example : pyReplace "expresso" "expresso" "espresso" = "espresso" := by decide
example : pyReplace "how to make expresso" "expresso" "espresso" = "how to make espresso" := by decide
example : pyReplace "ab" "" "-" = "-a-b-" := by decide
example : pyReplace "aaa" "aa" "b" = "ba" := by decide
example : correct_text [("expresso", .vstr "espresso")] "How to make EXPRESSO" =
    some "how to make espresso" := by decide
example : correct_text [("expresso", .vstr "espresso"), ("press", .vstr "drip")] "expresso" =
    some "esdripo" := by decide
example : is_coffee_related ["coffee", "latte"] "I like LATTE art" = true := by decide
example : is_coffee_related [] "coffee" = false := by decide
example : is_coffee_related [""] "" = true := by decide
